import Mathlib

/-!
Verification of the supervised-reptile meta-learning core
(`supervised_reptile/reptile.py`).

The Python source is shallowly embedded:

* Randomness is made explicit: every call to `random.shuffle`,
  `random.sample`, `random.choices` is parametrised by the data it would
  draw (a permutation of the list, a duplicate-free index list, an index
  stream).  Theorems that depend on the randomness being a legitimate
  outcome of the library call carry the corresponding validity hypothesis
  (e.g. "every reshuffle is a permutation of `samples`").
* Failure modes are explicit: a Python exception (`ValueError` from
  `random.sample`, `IndexError` from `_split_train_test` or from `[-1]`
  on an empty list, `NameError` for an unbound local) and
  non-termination of a generator are modelled as `Except PyErr` values.
* TensorFlow session state is a pair `(trainable, aux)`: the trainable
  variables (`_model_state`) are a flat vector of rationals, `aux` is
  the remaining global state; the full state (`_full_state`) is the
  whole pair.  `minimize_op` together with the optional `pre_step_op`
  is an opaque state-transition function `step`.
-/

/-- Failure modes of the embedded Python code: `valueError` is raised by
`random.sample` when the requested size exceeds the population,
`indexError` by `_split_train_test` and by `[-1]` on an empty sequence,
`unboundLocal` is Python's `NameError`/`UnboundLocalError` for reading a
loop-local variable when the loop ran zero times, and `diverges` marks a
generator whose consumption never terminates. -/
inductive PyErr where
  | valueError
  | indexError
  | unboundLocal
  | diverges
deriving DecidableEq

/-- A flat vector of trainable-variable values (one rational per scalar
parameter); the "keys" of a snapshot are the positions. -/
abbrev Vars := List ℚ

/-- Modelled from the spec: `add_vars` from `variables.py` (not under
`src/`); §4.2: elementwise addition over matching keys. -/
def add_vars (a b : Vars) : Vars := List.zipWith (· + ·) a b

/-- Modelled from the spec: `subtract_vars` from `variables.py` (not
under `src/`); §4.2: elementwise subtraction over matching keys. -/
def subtract_vars (a b : Vars) : Vars := List.zipWith (· - ·) a b

/-- Modelled from the spec: `scale_vars` from `variables.py` (not under
`src/`); §4.2: elementwise scaling. -/
def scale_vars (a : Vars) (t : ℚ) : Vars := a.map (fun x => t * x)

/-- Modelled from the spec: `interpolate_vars` from `variables.py` (not
under `src/`); §4.2: `interpolate(a, b, t) = a + t * (b - a)`,
elementwise. -/
def interpolate_vars (a b : Vars) (t : ℚ) : Vars :=
  List.zipWith (fun x y => x + t * (y - x)) a b

/-- Modelled from the spec: `average_vars` from `variables.py` (not
under `src/`); §4.2: elementwise mean of a non-empty list of
snapshots. -/
def average_vars (vs : List Vars) : Vars :=
  match vs with
  | [] => []
  | v :: rest => scale_vars (rest.foldl add_vars v) (1 / (rest.length + 1 : ℚ))

/-- A data class of the dataset: exposes `sample(n)`, returning `n`
drawn example inputs (sampling policy internal to the class). -/
structure ClassSource (I : Type) where
  sample : Nat → List I

/-- `random.choices(population, k=k)`: `k` independent uniform draws
with replacement; the draws are parametrised by an index stream `idx`
(reduced mod the population size, so every index stream is a legitimate
outcome and every outcome is reachable).  Raises `IndexError` on an
empty population, as `random.choices` does. -/
def randomChoices {C : Type} (dataset : List C) (k : Nat) (idx : Nat → Nat) :
    Except PyErr (List C) :=
  match dataset with
  | [] => .error .indexError
  | d :: ds =>
      .ok ((List.range k).map (fun j =>
        (d :: ds).get ⟨idx j % (ds.length + 1), Nat.mod_lt _ (Nat.succ_pos _)⟩))

/-- `_sample_mini_dataset(dataset, num_classes, num_shots)`: shuffle the
dataset (the caller passes the shuffled list `shuffled`, a permutation
of the dataset), take the first `num_classes` classes, draw `num_shots`
examples from each and label them by their post-shuffle position. -/
def sampleMiniDataset {I : Type} (shuffled : List (ClassSource I))
    (numClasses numShots : Nat) : List (I × Nat) :=
  (shuffled.take numClasses).enum.flatMap
    (fun p => (p.2.sample numShots).map (fun x => (x, p.1)))

/-- `_sample_mini_dataset_with_replacements(dataset, num_classes,
num_shots)`: `random.choices` draws `num_classes * num_shots` classes
with replacement (the preceding in-place shuffle composed with a uniform
choice is again a uniform choice, so it is absorbed into `idx`), then
one shot per draw, labelled `draw index mod num_classes`. -/
def sampleMiniDatasetWithReplacements {I : Type} (dataset : List (ClassSource I))
    (numClasses numShots : Nat) (idx : Nat → Nat) : Except PyErr (List (I × Nat)) :=
  match randomChoices dataset (numClasses * numShots) idx with
  | .error e => .error e
  | .ok chosen =>
      .ok (chosen.enum.flatMap
        (fun p => (p.2.sample 1).map (fun x => (x, p.1 % numClasses))))

/-- `random.sample(samples, k)`: `k` draws without replacement, i.e. a
uniformly random duplicate-free list of `k` positions.  Any `choice`
that is not a duplicate-free in-range list of length `k` is not a
possible outcome; in particular when `k > len(samples)` no outcome
exists and `random.sample` raises `ValueError`. -/
def randomSample {α : Type} (samples : List α) (k : Nat) (choice : List Nat) :
    Except PyErr (List α) :=
  if choice.length = k ∧ choice.Nodup ∧ (∀ i ∈ choice, i < samples.length)
  then .ok (choice.filterMap (fun i => samples.get? i))
  else .error .valueError

/-- The per-batch random draws consumed by `_mini_batches`:
`sampleChoices i` is the index list of the `i`-th `random.sample` call
(replacement mode), `shuffles i` the outcome of the `i`-th
`random.shuffle` (no-replacement mode). -/
structure BatchRand (α : Type) where
  sampleChoices : Nat → List Nat
  shuffles : Nat → List α

/-- The yielded batches of the loop `for _ in range(num_batches): yield
random.sample(samples, batch_size)`, materialised in order; the first
`ValueError` aborts the whole generator. -/
def collectBatches {α : Type} (f : Nat → Except PyErr (List α)) :
    List Nat → Except PyErr (List (List α))
  | [] => .ok []
  | i :: is =>
      match f i with
      | .error e => .error e
      | .ok b =>
          match collectBatches f is with
          | .error e => .error e
          | .ok rest => .ok (b :: rest)

/-- Replacement branch of `_mini_batches`. -/
def miniBatchesRep {α : Type} (samples : List α) (batchSize numBatches : Nat)
    (choices : Nat → List Nat) : Except PyErr (List (List α)) :=
  collectBatches (fun i => randomSample samples batchSize (choices i))
    (List.range numBatches)

/-- `n` consecutive chunks: chunk `k` holds elements `k*c .. k*c+c-1` of
`l` (short when `l` runs out). -/
def chunksN {α : Type} (c : Nat) : Nat → List α → List (List α)
  | 0, _ => []
  | n + 1, l => l.take c :: chunksN c n (l.drop c)

/-- The concatenation of the first `k` reshuffle outcomes, in the order
the no-replacement loop of `_mini_batches` consumes them. -/
def flatShuffles {α : Type} (shuffles : Nat → List α) (k : Nat) : List α :=
  ((List.range k).map shuffles).flatten

/-- No-replacement branch of `_mini_batches`: the loop appends samples
from repeated reshuffles to `cur_batch` (which persists across
reshuffles) and yields it each time it reaches `batch_size` elements
(after the append, so chunk size is `max batch_size 1`), stopping after
`num_batches` yields.  With `num_batches = 0` the stop test
`batch_count == num_batches` is never hit and with empty `samples` no
yield is ever reached: both consume the generator forever
(`diverges`).  Otherwise the yields are the first `num_batches` chunks
of the concatenated reshuffle stream (`max batch_size 1 * num_batches`
reshuffles are always enough). -/
def miniBatchesNoRep {α : Type} (samples : List α) (shuffles : Nat → List α)
    (batchSize numBatches : Nat) : Except PyErr (List (List α)) :=
  if numBatches = 0 then .error .diverges
  else if samples.isEmpty then .error .diverges
  else .ok (chunksN (max batchSize 1) numBatches
    (flatShuffles shuffles (max batchSize 1 * numBatches)))

/-- `_mini_batches(samples, batch_size, num_batches, replacement)`. -/
def miniBatches {α : Type} (samples : List α) (batchSize numBatches : Nat)
    (replacement : Bool) (rnd : BatchRand α) : Except PyErr (List (List α)) :=
  if replacement then miniBatchesRep samples batchSize numBatches rnd.sampleChoices
  else miniBatchesNoRep samples rnd.shuffles batchSize numBatches

/-- Remove the first element of `l` whose label is `lab`, returning it
together with the remainder (`None` when no element matches); this is
the inner `for i, item in enumerate(train_set): if item[1] == label:
del train_set[i]; ...; break` of `_split_train_test`. -/
def removeFirstByLabel {I : Type} (lab : Nat) :
    List (I × Nat) → Option ((I × Nat) × List (I × Nat))
  | [] => none
  | x :: xs =>
      if x.2 = lab then some (x, xs)
      else (removeFirstByLabel lab xs).map (fun p => (p.1, x :: p.2))

/-- One pass of `for label in labels:` inside `_split_train_test`: move
the first remaining example of each label from the train portion to the
test portion. -/
def splitRound {I : Type} (labels : List Nat)
    (st : List (I × Nat) × List (I × Nat)) : List (I × Nat) × List (I × Nat) :=
  labels.foldl
    (fun tt lab =>
      match removeFirstByLabel lab tt.1 with
      | none => tt
      | some (x, tr') => (tr', tt.2 ++ [x]))
    st

/-- `test_shots` passes of `splitRound` (the outer `for _ in
range(test_shots):`). -/
def splitRounds {I : Type} (labels : List Nat) :
    Nat → List (I × Nat) × List (I × Nat) → List (I × Nat) × List (I × Nat)
  | 0, st => st
  | k + 1, st => splitRounds labels k (splitRound labels st)

/-- `_split_train_test(samples, test_shots=1)`: move `test_shots`
first-matching examples per distinct label to the test set; raise
`IndexError` when the test set ends up short (some label ran out of
examples).  The distinct labels are modelled as the first-occurrence
deduplication of the label sequence; Python's `set` iterates in an
unspecified order, and every property proved below is independent of
that order. -/
def splitTrainTest {I : Type} (samples : List (I × Nat)) (testShots : Nat := 1) :
    Except PyErr (List (I × Nat) × List (I × Nat)) :=
  let labels := (samples.map Prod.snd).dedup
  let st := splitRounds labels testShots (samples, [])
  if st.2.length < labels.length * testShots then .error .indexError
  else .ok st

/-- `Reptile._test_predictions`: transductive mode runs one prediction
on all test inputs; non-transductive mode predicts once per test
example on the train inputs with that example appended and keeps the
last prediction (`[-1]`, an `IndexError` on an empty prediction
vector). -/
def testPredictions {I : Type} (predict : List I → List Nat) (transductive : Bool)
    (trainSet testSet : List (I × Nat)) : Except PyErr (List Nat) :=
  if transductive then .ok (predict (testSet.map Prod.fst))
  else testSet.mapM (fun t =>
    match (predict (trainSet.map Prod.fst ++ [t.1])).getLast? with
    | some v => .ok v
    | none => .error .indexError)

/-- `Reptile.train_augmetation`: the loop builds four groups of images
(the originals plus three independently augmented copies, the first
iteration contributing both the originals and one augmented copy) and
four copies of the labels, flattened group-major; modelled by zipping
the flattened images with the flattened labels.  With `augment = None`
the batch is used as is. -/
def augmentBatch {I : Type} (augment : Option (Nat → List I → List I))
    (batch : List (I × Nat)) : List (I × Nat) :=
  match augment with
  | none => batch
  | some f =>
      let inputs := batch.map Prod.fst
      let labels := batch.map Prod.snd
      (inputs ++ f 0 inputs ++ f 1 inputs ++ f 2 inputs).zip
        (labels ++ (labels ++ (labels ++ labels)))

/-- One full session state: trainable variables plus auxiliary state.
`_model_state` exports/imports the first component, `_full_state` the
whole pair. -/
abbrev SessState (A : Type) := Vars × A

/-- `Reptile.evaluate`: sample a task with `num_shots + 1` shots per
class, split off one test example per class, snapshot the full state,
fine-tune on the train portion (optionally through
`train_augmetation`), predict on the test portion, count correct
predictions, restore the full state and return the count. -/
def evaluate {I A : Type}
    (step : SessState A → List (I × Nat) → SessState A)
    (predict : SessState A → List I → List Nat)
    (transductive : Bool) (augment : Option (Nat → List I → List I))
    (shuffled : List (ClassSource I)) (numClasses numShots : Nat)
    (innerBatchSize innerIters : Nat) (replacement : Bool)
    (rnd : BatchRand (I × Nat)) (s : SessState A) :
    Except PyErr (Nat × SessState A) :=
  let task := sampleMiniDataset shuffled numClasses (numShots + 1)
  match splitTrainTest task 1 with
  | .error e => .error e
  | .ok (trainSet, testSet) =>
      match miniBatches trainSet innerBatchSize innerIters replacement rnd with
      | .error e => .error e
      | .ok batches =>
          let sAdapted := batches.foldl
            (fun st b => step st (augmentBatch augment b)) s
          match testPredictions (predict sAdapted) transductive trainSet testSet with
          | .error e => .error e
          | .ok preds =>
              .ok (((preds.zip testSet).countP (fun pr => pr.1 == pr.2.2)), s)

/-- The body of Reptile's `for _ in range(meta_batch_size):`, threading
the session state: run the inner loop on the batches of task `k`,
export the trainable snapshot, restore `old` (trainable only — the
auxiliary state is carried over), and recurse; returns the collected
snapshots and the final state. -/
def reptileLoop {I A : Type} (step : SessState A → List (I × Nat) → SessState A)
    (old : Vars) (taskBatches : Nat → Except PyErr (List (List (I × Nat)))) :
    List Nat → SessState A → Except PyErr (List Vars × SessState A)
  | [], s => .ok ([], s)
  | k :: ks, s =>
      match taskBatches k with
      | .error e => .error e
      | .ok bs =>
          let s' := bs.foldl step s
          match reptileLoop step old taskBatches ks (old, s'.2) with
          | .error e => .error e
          | .ok (vs, sF) => .ok (s'.1 :: vs, sF)

/-- The per-repetition mini-batch pipeline of `Reptile.train_step`:
sample a task with class replacement, then generate its inner-loop
mini-batches.  Repetition `k` consumes the `k`-th slice of
randomness. -/
def reptileTaskBatches {I : Type} (dataset : List (ClassSource I))
    (numClasses numShots innerBatchSize innerIters : Nat) (replacement : Bool)
    (idx : Nat → Nat → Nat) (rnds : Nat → BatchRand (I × Nat)) (k : Nat) :
    Except PyErr (List (List (I × Nat))) :=
  match sampleMiniDatasetWithReplacements dataset numClasses numShots (idx k) with
  | .error e => .error e
  | .ok task => miniBatches task innerBatchSize innerIters replacement (rnds k)

/-- `Reptile.train_step`: snapshot `old`, run `meta_batch_size`
independent task adaptations (each restored to `old` afterwards),
average the exported snapshots and import
`interpolate_vars(old, average, meta_step_size)`. -/
def reptileTrainStep {I A : Type}
    (step : SessState A → List (I × Nat) → SessState A)
    (dataset : List (ClassSource I)) (numClasses numShots : Nat)
    (innerBatchSize innerIters : Nat) (replacement : Bool)
    (metaStepSize : ℚ) (metaBatchSize : Nat)
    (idx : Nat → Nat → Nat) (rnds : Nat → BatchRand (I × Nat))
    (s : SessState A) : Except PyErr (SessState A) :=
  let old := s.1
  match reptileLoop step old
      (reptileTaskBatches dataset numClasses numShots innerBatchSize innerIters
        replacement idx rnds)
      (List.range metaBatchSize) s with
  | .error e => .error e
  | .ok (newVars, sEnd) =>
      .ok (interpolate_vars old (average_vars newVars) metaStepSize, sEnd.2)

/-- The per-task inner loop of `FOML.train_step`: each iteration binds
`last_backup` to the trainable snapshot before its step and then steps;
after the loop, `subtract_vars(export, last_backup)` is the update of
the final step only.  When the loop ran zero times, reading
`last_backup` raises an unbound-local error. -/
def fomlTaskUpdate {I A : Type} (step : SessState A → List (I × Nat) → SessState A)
    (batches : List (List (I × Nat))) (s : SessState A) :
    Except PyErr (Vars × SessState A) :=
  match batches.foldl (fun p b => (some p.2.1, step p.2 b))
      ((none : Option Vars), s) with
  | (none, _) => .error .unboundLocal
  | (some lastBackup, s') => .ok (subtract_vars s'.1 lastBackup, s')

/-- `FOML._mini_batches`: with `tail_shots` unset, defer to
`_mini_batches`; otherwise reserve `tail_shots` examples per class as a
tail batch, generate `inner_iters - 1` ordinary batches from the rest
and yield the tail batch last.  (`inner_iters - 1` is truncated
subtraction: for `inner_iters ≤ 1` Python's `range(inner_iters - 1)` is
also empty in replacement mode, and in no-replacement mode both
`inner_iters - 1 = 0` and `inner_iters - 1 = -1` make the inner
generator unbounded, i.e. `diverges`.) -/
def fomlMiniBatches {I : Type} (tailShots : Option Nat) (task : List (I × Nat))
    (innerBatchSize innerIters : Nat) (replacement : Bool)
    (rnd : BatchRand (I × Nat)) : Except PyErr (List (List (I × Nat))) :=
  match tailShots with
  | none => miniBatches task innerBatchSize innerIters replacement rnd
  | some t =>
      match splitTrainTest task t with
      | .error e => .error e
      | .ok (train, tail) =>
          match miniBatches train innerBatchSize (innerIters - 1) replacement rnd with
          | .error e => .error e
          | .ok bs => .ok (bs ++ [tail])

/-- The body of FOML's `for _ in range(meta_batch_size):`, threading the
session state: compute the final-step update for task `k`, restore
`old` (trainable only), recurse; returns the collected updates and the
final state. -/
def fomlLoop {I A : Type} (step : SessState A → List (I × Nat) → SessState A)
    (old : Vars) (taskBatches : Nat → Except PyErr (List (List (I × Nat)))) :
    List Nat → SessState A → Except PyErr (List Vars × SessState A)
  | [], s => .ok ([], s)
  | k :: ks, s =>
      match taskBatches k with
      | .error e => .error e
      | .ok bs =>
          match fomlTaskUpdate step bs s with
          | .error e => .error e
          | .ok (u, s') =>
              match fomlLoop step old taskBatches ks (old, s'.2) with
              | .error e => .error e
              | .ok (us, sF) => .ok (u :: us, sF)

/-- The per-repetition mini-batch pipeline of `FOML.train_step`. -/
def fomlTaskBatches {I : Type} (tailShots : Option Nat)
    (dataset : List (ClassSource I))
    (numClasses numShots innerBatchSize innerIters : Nat) (replacement : Bool)
    (idx : Nat → Nat → Nat) (rnds : Nat → BatchRand (I × Nat)) (k : Nat) :
    Except PyErr (List (List (I × Nat))) :=
  match sampleMiniDatasetWithReplacements dataset numClasses numShots (idx k) with
  | .error e => .error e
  | .ok task => fomlMiniBatches tailShots task innerBatchSize innerIters replacement (rnds k)

/-- `FOML.train_step`: snapshot `old`, collect the per-task final-step
updates (restoring `old` after each task), average them and import
`add_vars(old, scale_vars(average, meta_step_size))`. -/
def fomlTrainStep {I A : Type} (tailShots : Option Nat)
    (step : SessState A → List (I × Nat) → SessState A)
    (dataset : List (ClassSource I)) (numClasses numShots : Nat)
    (innerBatchSize innerIters : Nat) (replacement : Bool)
    (metaStepSize : ℚ) (metaBatchSize : Nat)
    (idx : Nat → Nat → Nat) (rnds : Nat → BatchRand (I × Nat))
    (s : SessState A) : Except PyErr (SessState A) :=
  let old := s.1
  match fomlLoop step old
      (fomlTaskBatches tailShots dataset numClasses numShots innerBatchSize
        innerIters replacement idx rnds)
      (List.range metaBatchSize) s with
  | .error e => .error e
  | .ok (updates, sEnd) =>
      .ok (add_vars old (scale_vars (average_vars updates) metaStepSize), sEnd.2)

/-! ### Helper lemmas about the sampler embedding -/

theorem flatMap_const_length {β γ : Type} {l : List β} {f : β → List γ} {n : Nat}
    (h : ∀ b ∈ l, (f b).length = n) : (l.flatMap f).length = l.length * n := by
  induction l with
  | nil => simp
  | cons x xs ih =>
      simp only [List.flatMap_cons, List.length_append, List.length_cons]
      rw [h x (by simp), ih (fun b hb => h b (by simp [hb])), Nat.succ_mul,
        Nat.add_comm]

theorem chunksN_length {α : Type} (c : Nat) :
    ∀ (n : Nat) (l : List α), (chunksN c n l).length = n := by
  intro n
  induction n with
  | zero => intro l; rfl
  | succ m ih => intro l; simp [chunksN, ih]

theorem mem_chunksN_length {α : Type} {c : Nat} :
    ∀ {n : Nat} {l : List α}, c * n ≤ l.length →
      ∀ b ∈ chunksN c n l, b.length = c := by
  intro n
  induction n with
  | zero => intro l _ b hb; simp [chunksN] at hb
  | succ m ih =>
      intro l hlen b hb
      have hc : c ≤ l.length := by
        calc c ≤ c * (m + 1) := Nat.le_mul_of_pos_right c (Nat.succ_pos m)
        _ ≤ l.length := hlen
      simp only [chunksN, List.mem_cons] at hb
      rcases hb with rfl | hb
      · exact List.length_take_of_le hc
      · refine ih ?_ b hb
        have hml : c * m + c ≤ l.length := by
          calc c * m + c = c * (m + 1) := by ring
          _ ≤ l.length := hlen
        rw [List.length_drop]
        omega

theorem mem_chunksN_subset {α : Type} {c : Nat} :
    ∀ {n : Nat} {l : List α} {b : List α}, b ∈ chunksN c n l → b ⊆ l := by
  intro n
  induction n with
  | zero => intro l b hb; simp [chunksN] at hb
  | succ m ih =>
      intro l b hb
      simp only [chunksN, List.mem_cons] at hb
      rcases hb with rfl | hb
      · exact List.take_subset c l
      · exact (ih hb).trans (List.drop_subset c l)

theorem flatShuffles_length {α : Type} {shuffles : Nat → List α} {L : Nat}
    (h : ∀ i, (shuffles i).length = L) (k : Nat) :
    (flatShuffles shuffles k).length = k * L := by
  unfold flatShuffles
  rw [List.length_flatten]
  induction k with
  | zero => simp
  | succ m ih =>
      rw [List.range_succ, List.map_append, List.map_append, List.sum_append, ih]
      simp [h m, Nat.succ_mul]

theorem mem_flatShuffles {α : Type} {shuffles : Nat → List α} {k : Nat} {x : α}
    (h : x ∈ flatShuffles shuffles k) : ∃ i, x ∈ shuffles i := by
  unfold flatShuffles at h
  rw [List.mem_flatten] at h
  obtain ⟨l, hl, hx⟩ := h
  rw [List.mem_map] at hl
  obtain ⟨i, _, rfl⟩ := hl
  exact ⟨i, hx⟩

/-! ### C3: task sampling with a short dataset -/

/-- A concrete one-class dataset: `sample n` returns `n` copies of the
input `7`. -/
def oneClassSource : ClassSource Nat := ⟨fun n => List.replicate n 7⟩

/-- C3 counterexample: with a single-class dataset and `num_classes = 2`
(and any shuffle — of a singleton list there is only one),
`_sample_mini_dataset` raises nothing and silently yields a task drawn
from one class only (its label set is `{0}`, of size `1 < 2`). -/
theorem sample_task_short_dataset_no_error :
    sampleMiniDataset [oneClassSource] 2 1 = [(7, 0)] ∧
    ((sampleMiniDataset [oneClassSource] 2 1).map Prod.snd).dedup = [0] ∧
    (1 : Nat) < 2 :=
  ⟨rfl, rfl, by decide⟩

/-- C3 amended: `_sample_mini_dataset` never fails; when the dataset has
fewer ClassSources than `num_classes` it silently truncates, producing a
task over `min num_classes |dataset|` classes (labels all below that
bound, `num_shots` examples each). -/
theorem sample_task_truncates {I : Type} (shuffled : List (ClassSource I))
    (numClasses numShots : Nat)
    (hsample : ∀ c ∈ shuffled, (c.sample numShots).length = numShots) :
    (sampleMiniDataset shuffled numClasses numShots).length
      = min numClasses shuffled.length * numShots ∧
    ∀ p ∈ sampleMiniDataset shuffled numClasses numShots,
      p.2 < min numClasses shuffled.length := by
  have hmem : ∀ q ∈ (shuffled.take numClasses).enum,
      q.2 ∈ shuffled ∧ q.1 < min numClasses shuffled.length := by
    intro q hq
    rw [List.mem_enum_iff_getElem?] at hq
    rw [List.getElem?_eq_some] at hq
    obtain ⟨h1, h2⟩ := hq
    rw [List.length_take] at h1
    refine ⟨?_, h1⟩
    exact List.take_subset _ _ (h2 ▸ List.getElem_mem _)
  constructor
  · unfold sampleMiniDataset
    have hlen : ∀ q ∈ (shuffled.take numClasses).enum,
        ((q.2.sample numShots).map (fun x => (x, q.1))).length = numShots := by
      intro q hq
      rw [List.length_map]
      exact hsample q.2 (hmem q hq).1
    rw [flatMap_const_length hlen, List.enum_length, List.length_take]
  · intro p hp
    unfold sampleMiniDataset at hp
    rw [List.mem_flatMap] at hp
    obtain ⟨q, hq, hp⟩ := hp
    rw [List.mem_map] at hp
    obtain ⟨x, _, rfl⟩ := hp
    exact (hmem q hq).2

/-- C3 amended, witness: at the concrete short dataset the task has
`min 2 1 * 1 = 1` example and every label is below `min 2 1 = 1`. -/
theorem sample_task_truncates_witness :
    (sampleMiniDataset [oneClassSource] 2 1).length = min 2 1 * 1 ∧
    ∀ p ∈ sampleMiniDataset [oneClassSource] 2 1, p.2 < min 2 1 :=
  sample_task_truncates [oneClassSource] 2 1 (by intro c hc; simp at hc; subst hc; rfl)

/-! ### C6: no-replacement mode with fewer samples than batch size -/

/-- C6 counterexample: with one sample and `batch_size = 2` (shuffling a
singleton can only return it), the no-replacement generator detects
nothing and yields the batch `[0, 0]` spanning two reshuffles. -/
theorem mini_batches_small_population_yields :
    miniBatchesNoRep [0] (fun _ => [0]) 2 1 = .ok [[0, 0]] := rfl

/-- C6 amended: when `0 < |samples| < batch_size`, no-replacement
`_mini_batches` detects no error: it yields `num_batches` batches of
size `batch_size` whose elements are drawn from several reshuffles, and
since a batch then holds more elements of `samples` than `samples` has,
every batch contains a repeated sample. -/
theorem mini_batches_small_population {α : Type} [DecidableEq α]
    (samples : List α) (sh : Nat → List α) (batchSize numBatches : Nat)
    (hperm : ∀ i, (sh i).Perm samples) (hne : samples ≠ [])
    (hlt : samples.length < batchSize) (hnb : numBatches ≠ 0) :
    ∃ bsl, miniBatchesNoRep samples sh batchSize numBatches = .ok bsl ∧
      bsl.length = numBatches ∧
      ∀ b ∈ bsl, b.length = batchSize ∧ ¬ b.Nodup := by
  have hL : ∀ i, (sh i).length = samples.length := fun i => (hperm i).length_eq
  have hpos : 0 < samples.length := List.length_pos.mpr hne
  have hbs : 0 < batchSize := lt_trans hpos hlt
  have hmax : max batchSize 1 = batchSize := Nat.max_eq_left hbs
  have hflat : (flatShuffles sh (max batchSize 1 * numBatches)).length
      = max batchSize 1 * numBatches * samples.length :=
    flatShuffles_length hL _
  have henough : max batchSize 1 * numBatches
      ≤ (flatShuffles sh (max batchSize 1 * numBatches)).length := by
    rw [hflat]
    exact Nat.le_mul_of_pos_right _ hpos
  refine ⟨chunksN (max batchSize 1) numBatches
      (flatShuffles sh (max batchSize 1 * numBatches)), ?_, ?_, ?_⟩
  · unfold miniBatchesNoRep
    rw [if_neg hnb, if_neg (by simp [hne])]
  · exact chunksN_length _ _ _
  · intro b hb
    have hblen : b.length = batchSize := by
      rw [← hmax]; exact mem_chunksN_length henough b hb
    refine ⟨hblen, ?_⟩
    intro hnd
    have hsub : b ⊆ samples := by
      intro x hx
      have hx' := mem_chunksN_subset hb hx
      obtain ⟨i, hi⟩ := mem_flatShuffles hx'
      exact (hperm i).subset hi
    have := (List.subperm_of_subset hnd hsub).length_le
    omega

/-- C6 amended, witness: the concrete short-population instance. -/
theorem mini_batches_small_population_witness :
    ∃ bsl, miniBatchesNoRep [0] (fun _ => [0]) 2 1 = .ok bsl ∧
      bsl.length = 1 ∧ ∀ b ∈ bsl, b.length = 2 ∧ ¬ b.Nodup :=
  mini_batches_small_population [0] (fun _ => [0]) 2 1
    (fun _ => List.Perm.refl _) (by decide) (by decide) (by decide)

/-! ### C4: replacement-mode batches -/

/-- C4 counterexample: at `samples = [0, 1]`, `batch_size = 2`, a draw
that repeats a sample within the batch (`random.sample` outcome
`[0, 0]`) is impossible — the embedded `random.sample` rejects it —
while the duplicate-free draw `[0, 1]` succeeds; replacement-mode
batches cannot repeat a sample within one batch. -/
theorem mini_batches_rep_no_repeat_within_batch :
    miniBatchesRep [0, 1] 2 1 (fun _ => [0, 0]) = .error .valueError ∧
    miniBatchesRep [0, 1] 2 1 (fun _ => [0, 1]) = .ok [[0, 1]] := by
  constructor <;> rfl

/-- Every successful batch collection over `is` has one batch per index,
each produced by its `f i`. -/
theorem collectBatches_ok {α : Type} {f : Nat → Except PyErr (List α)} :
    ∀ {is : List Nat} {r : List (List α)}, collectBatches f is = .ok r →
      r.length = is.length ∧ ∀ b ∈ r, ∃ i ∈ is, f i = .ok b := by
  intro is
  induction is with
  | nil =>
      intro r h
      cases h
      exact ⟨rfl, by simp⟩
  | cons i is ih =>
      intro r h
      unfold collectBatches at h
      cases hf : f i with
      | error e => rw [hf] at h; cases h
      | ok b =>
          rw [hf] at h
          cases hrest : collectBatches f is with
          | error e => rw [hrest] at h; cases h
          | ok rest =>
              rw [hrest] at h
              cases h
              obtain ⟨hlen, hmem⟩ := ih hrest
              refine ⟨by simp [hlen], ?_⟩
              intro b' hb'
              rcases List.mem_cons.mp hb' with rfl | hb'
              · exact ⟨i, by simp, hf⟩
              · obtain ⟨j, hj, hfj⟩ := hmem b' hb'
                exact ⟨j, by simp [hj], hfj⟩

/-- A successful `random.sample` outcome: `k` elements of `samples`,
duplicate-free whenever `samples` is. -/
theorem randomSample_ok {α : Type} {samples : List α} {k : Nat} {choice : List Nat}
    {b : List α} (h : randomSample samples k choice = .ok b) :
    b.length = k ∧ (∀ x ∈ b, x ∈ samples) ∧ (samples.Nodup → b.Nodup) := by
  unfold randomSample at h
  split at h
  case isFalse => cases h
  case isTrue hvalid =>
    obtain ⟨hlen, hnd, hbound⟩ := hvalid
    cases h
    refine ⟨?_, ?_, ?_⟩
    · rw [← hlen]
      clear hlen hnd
      induction choice with
      | nil => rfl
      | cons i is ih =>
          have hi : i < samples.length := hbound i (by simp)
          rw [List.filterMap_cons, List.get?_eq_get hi]
          simp only [List.length_cons]
          rw [ih (fun j hj => hbound j (by simp [hj]))]
    · intro x hx
      rw [List.mem_filterMap] at hx
      obtain ⟨i, _, hget⟩ := hx
      exact List.get?_mem hget
    · intro hsnd
      refine List.Nodup.filterMap ?_ hnd
      intro i j x hxi hxj
      simp only [Option.mem_def] at hxi hxj
      have hi : i < samples.length := by
        by_contra hge
        rw [List.get?_eq_none.mpr (Nat.le_of_not_lt hge)] at hxi
        cases hxi
      rw [List.get?_eq_getElem?] at hxi hxj
      exact List.getElem?_inj hi hsnd (hxi.trans hxj.symm)

/-- C4 amended: replacement-mode `_mini_batches` yields exactly
`num_batches` batches of size `batch_size`; each batch is drawn from
`samples` independently but *without* replacement inside the batch
(`random.sample`), so when `samples` is duplicate-free no sample occurs
twice within one batch (repeats across batches remain possible). -/
theorem mini_batches_rep_spec {α : Type} {samples : List α}
    {batchSize numBatches : Nat} {ch : Nat → List Nat} {bsl : List (List α)}
    (h : miniBatchesRep samples batchSize numBatches ch = .ok bsl) :
    bsl.length = numBatches ∧
    ∀ b ∈ bsl, b.length = batchSize ∧ (∀ x ∈ b, x ∈ samples) ∧
      (samples.Nodup → b.Nodup) := by
  obtain ⟨hlen, hmem⟩ := collectBatches_ok h
  refine ⟨by rw [hlen, List.length_range], ?_⟩
  intro b hb
  obtain ⟨i, _, hfi⟩ := hmem b hb
  exact randomSample_ok hfi

/-- C4 amended, witness: the two-sample instance with one batch. -/
theorem mini_batches_rep_spec_witness :
    ([[0, 1]] : List (List Nat)).length = 1 ∧
    ∀ b ∈ ([[0, 1]] : List (List Nat)), b.length = 2 ∧
      (∀ x ∈ b, x ∈ [0, 1]) ∧ (([0, 1] : List Nat).Nodup → b.Nodup) :=
  @mini_batches_rep_spec Nat [0, 1] 2 1 (fun _ => [0, 1]) [[0, 1]] rfl

/-! ### C9: transductive vs non-transductive prediction -/

/-- C9: in transductive mode, `_test_predictions` is one prediction on
all test inputs at once; in non-transductive mode it is one prediction
per test example, on the training inputs with that example appended,
keeping the last prediction of each call. -/
theorem test_predictions_spec {I : Type} (predict : List I → List Nat)
    (trainSet testSet : List (I × Nat)) (hne : ∀ xs, predict xs ≠ []) :
    testPredictions predict true trainSet testSet
      = .ok (predict (testSet.map Prod.fst)) ∧
    testPredictions predict false trainSet testSet
      = .ok (testSet.map (fun t =>
          (predict (trainSet.map Prod.fst ++ [t.1])).getLast (hne _))) := by
  constructor
  · rfl
  · unfold testPredictions
    rw [if_neg (by simp)]
    induction testSet with
    | nil => rfl
    | cons t ts ih =>
        rw [List.mapM_cons, List.map_cons]
        rw [List.getLast?_eq_getLast _ (hne (trainSet.map Prod.fst ++ [t.1]))]
        simp only [bind, Except.bind]
        rw [ih]
        rfl

/-- C9 witness: a concrete predictor (returning the singleton
`[length of its input]`, hence never empty), one training example and
one test example. -/
theorem test_predictions_spec_witness :
    testPredictions (fun xs : List Nat => [xs.length]) true [(1, 0)] [(2, 1)]
      = .ok [1] ∧
    testPredictions (fun xs : List Nat => [xs.length]) false [(1, 0)] [(2, 1)]
      = .ok [2] := by
  have h := test_predictions_spec (fun xs : List Nat => [xs.length])
    [(1, 0)] [(2, 1)] (fun xs => by simp)
  exact ⟨h.1, h.2⟩

/-! ### C10: FOML with an empty inner-loop batch sequence -/

/-- The auxiliary-state component is threaded through the tracking fold
unchanged from the plain fold. -/
theorem trackFold_snd {I A : Type} (step : SessState A → List (I × Nat) → SessState A) :
    ∀ (bs : List (List (I × Nat))) (acc : Option Vars) (s : SessState A),
      (bs.foldl (fun p b => (some p.2.1, step p.2 b)) (acc, s)).2 = bs.foldl step s := by
  intro bs
  induction bs with
  | nil => intro acc s; rfl
  | cons b bs ih => intro acc s; exact ih _ _

/-- After a non-empty batch list, the tracked backup is the trainable
snapshot just before the final step. -/
theorem trackFold_concat {I A : Type} (step : SessState A → List (I × Nat) → SessState A)
    (l : List (List (I × Nat))) (b : List (I × Nat)) (s : SessState A) :
    (l ++ [b]).foldl (fun p c => (some p.2.1, step p.2 c)) ((none : Option Vars), s)
      = (some (l.foldl step s).1, (l ++ [b]).foldl step s) := by
  rw [List.foldl_append, List.foldl_append]
  have h2 := trackFold_snd step l none s
  simp only [List.foldl_cons, List.foldl_nil]
  rw [h2]

/-- A successful `fomlTaskUpdate` means the batch list was non-empty,
the state advanced by the full inner loop, and the update is the delta
of the final step only. -/
theorem fomlTaskUpdate_ok {I A : Type}
    {step : SessState A → List (I × Nat) → SessState A}
    {batches : List (List (I × Nat))} {s : SessState A} {u : Vars} {s' : SessState A}
    (h : fomlTaskUpdate step batches s = .ok (u, s')) :
    batches ≠ [] ∧ s' = batches.foldl step s ∧
    u = subtract_vars (batches.foldl step s).1 ((batches.dropLast).foldl step s).1 := by
  rcases List.eq_nil_or_concat batches with rfl | ⟨l, b, rfl⟩
  · unfold fomlTaskUpdate at h
    simp at h
  · unfold fomlTaskUpdate at h
    rw [List.concat_eq_append] at h ⊢
    rw [trackFold_concat] at h
    cases h
    refine ⟨by simp, rfl, ?_⟩
    rw [List.dropLast_concat]

/-- `fomlTaskUpdate` on an empty batch list reads the unbound
`last_backup`. -/
theorem fomlTaskUpdate_nil {I A : Type}
    (step : SessState A → List (I × Nat) → SessState A) (s : SessState A) :
    fomlTaskUpdate step [] s = .error .unboundLocal := rfl

/-- C10 amended: whenever the first task's mini-batch sequence is empty,
`FOML.train_step` fails with the unbound-local error (it never returns a
zero update). -/
theorem foml_empty_batches_unbound {I A : Type} (tailShots : Option Nat)
    (step : SessState A → List (I × Nat) → SessState A)
    (dataset : List (ClassSource I)) (numClasses numShots : Nat)
    (innerBatchSize innerIters : Nat) (replacement : Bool)
    (metaStepSize : ℚ) (metaBatchSize : Nat)
    (idx : Nat → Nat → Nat) (rnds : Nat → BatchRand (I × Nat)) (s : SessState A)
    (htask : fomlTaskBatches tailShots dataset numClasses numShots innerBatchSize
      innerIters replacement idx rnds 0 = .ok [])
    (hmbs : 0 < metaBatchSize) :
    fomlTrainStep tailShots step dataset numClasses numShots innerBatchSize
      innerIters replacement metaStepSize metaBatchSize idx rnds s
      = .error .unboundLocal := by
  obtain ⟨m, rfl⟩ := Nat.exists_eq_succ_of_ne_zero (Nat.pos_iff_ne_zero.mp hmbs)
  unfold fomlTrainStep
  rw [List.range_succ_eq_map]
  unfold fomlLoop
  rw [htask]
  rfl

/-- A concrete session step: add one to every trainable variable, leave
the auxiliary state alone. -/
def bumpStep {I : Type} : SessState Unit → List (I × Nat) → SessState Unit :=
  fun st _ => (st.1.map (fun x => x + 1), st.2)

/-- C10 counterexample: with `tail_shots = 1`, `inner_iters = 1` and
sample replacement, the mini-batch sequence is the tail batch alone —
non-empty — and `FOML.train_step` succeeds (here moving the single
trainable variable from `0` to `1`), refuting "inner_iters >= 2 is
required when tail_shots is set". -/
theorem foml_tail_one_iter_succeeds :
    fomlTrainStep (some 1) (bumpStep (I := Nat)) [oneClassSource] 1 1 1 1 true 1 1
      (fun _ _ => 0) (fun _ => ⟨fun _ => [], fun _ => []⟩) ([0], ())
      = .ok ([1], ()) := by
  simp [fomlTrainStep, fomlLoop, fomlTaskBatches, fomlMiniBatches,
    sampleMiniDatasetWithReplacements, randomChoices, splitTrainTest, splitRounds,
    splitRound, removeFirstByLabel, miniBatches, miniBatchesRep, collectBatches,
    randomSample, fomlTaskUpdate, bumpStep, oneClassSource, subtract_vars,
    add_vars, scale_vars, average_vars, bind, Except.bind]

/-- C10 amended, witness: with `tail_shots` unset, `inner_iters = 0` and
replacement on, the first task's batch sequence is empty and the call
fails with the unbound-local error. -/
theorem foml_empty_batches_unbound_witness :
    fomlTaskBatches none [oneClassSource] 1 1 1 0 true (fun _ _ => 0)
      (fun _ => ⟨fun _ => [], fun _ => []⟩) 0 = .ok [] ∧
    fomlTrainStep none (bumpStep (I := Nat)) [oneClassSource] 1 1 1 0 true 1 1
      (fun _ _ => 0) (fun _ => ⟨fun _ => [], fun _ => []⟩) ([0], ())
      = .error .unboundLocal :=
  ⟨rfl, foml_empty_batches_unbound none (bumpStep (I := Nat)) [oneClassSource] 1 1 1 0
    true 1 1 (fun _ _ => 0) (fun _ => ⟨fun _ => [], fun _ => []⟩) ([0], ())
    rfl (by decide)⟩

/-! ### C1: the Reptile training step -/

/-- A successful `_mini_batches` call yields exactly `num_batches`
batches (in either mode). -/
theorem miniBatches_ok_length {α : Type} {samples : List α}
    {batchSize numBatches : Nat} {replacement : Bool} {rnd : BatchRand α}
    {bsl : List (List α)}
    (h : miniBatches samples batchSize numBatches replacement rnd = .ok bsl) :
    bsl.length = numBatches := by
  unfold miniBatches at h
  cases replacement with
  | true =>
      rw [if_pos rfl] at h
      exact (mini_batches_rep_spec h).1
  | false =>
      rw [if_neg (by simp)] at h
      unfold miniBatchesNoRep at h
      by_cases hnb : numBatches = 0
      · rw [if_pos hnb] at h; cases h
      · rw [if_neg hnb] at h
        split at h
        · cases h
        · cases h
          exact chunksN_length _ _ _

/-- Characterisation of a successful Reptile outer loop started with the
trainable snapshot equal to `old`: one exported snapshot per repetition,
and each snapshot is the endpoint of an inner loop started from
trainable state `old` (the auxiliary state `a` of that start is
whatever the previous repetitions left behind). -/
theorem reptileLoop_ok {I A : Type}
    {step : SessState A → List (I × Nat) → SessState A} {old : Vars}
    {tb : Nat → Except PyErr (List (List (I × Nat)))} :
    ∀ {ks : List Nat} {s : SessState A} {vs : List Vars} {sF : SessState A},
      s.1 = old →
      reptileLoop step old tb ks s = .ok (vs, sF) →
      vs.length = ks.length ∧
      ∀ j (hj : j < ks.length) (hj' : j < vs.length), ∃ bs a,
        tb (ks.get ⟨j, hj⟩) = .ok bs ∧
        vs.get ⟨j, hj'⟩ = (bs.foldl step (old, a)).1 := by
  intro ks
  induction ks with
  | nil =>
      intro s vs sF hs h
      cases h
      exact ⟨rfl, fun j hj => absurd hj (Nat.not_lt_zero j)⟩
  | cons k ks ih =>
      intro s vs sF hs h
      unfold reptileLoop at h
      cases htb : tb k with
      | error e => rw [htb] at h; cases h
      | ok bs =>
          rw [htb] at h
          dsimp only at h
          cases hrec : reptileLoop step old tb ks (old, (bs.foldl step s).2) with
          | error e => rw [hrec] at h; cases h
          | ok p =>
              obtain ⟨vs', sF'⟩ := p
              rw [hrec] at h
              cases h
              obtain ⟨hlen, hmem⟩ := ih (s := (old, (bs.foldl step s).2)) rfl hrec
              refine ⟨by simp [hlen], ?_⟩
              intro j hj hj'
              cases j with
              | zero =>
                  refine ⟨bs, s.2, htb, ?_⟩
                  have hs' : s = (old, s.2) := by
                    rw [← hs]
                  rw [← hs']
                  rfl
              | succ j =>
                  have hj2 : j < ks.length := Nat.lt_of_succ_lt_succ hj
                  have hj2' : j < vs'.length := Nat.lt_of_succ_lt_succ hj'
                  obtain ⟨bs', a, htb', hv⟩ := hmem j hj2 hj2'
                  exact ⟨bs', a, htb', hv⟩

/-- C1: a successful `Reptile.train_step` exports one trainable snapshot
per repetition of the `meta_batch_size` outer loop — each obtained by
sampling a task with class replacement, running `inner_iters`
optimisation steps over its mini-batches from the *same* starting
trainable vector `old = s.1` (the restore between repetitions), and
exporting — and finally imports
`interpolate_vars(old, average_vars(snapshots), meta_step_size)` as the
live trainable state. -/
theorem reptile_train_step_correct {I A : Type}
    {step : SessState A → List (I × Nat) → SessState A}
    {dataset : List (ClassSource I)} {numClasses numShots : Nat}
    {innerBatchSize innerIters : Nat} {replacement : Bool}
    {metaStepSize : ℚ} {metaBatchSize : Nat}
    {idx : Nat → Nat → Nat} {rnds : Nat → BatchRand (I × Nat)}
    {s sF : SessState A}
    (h : reptileTrainStep step dataset numClasses numShots innerBatchSize
      innerIters replacement metaStepSize metaBatchSize idx rnds s = .ok sF) :
    ∃ snaps : List Vars, snaps.length = metaBatchSize ∧
      sF.1 = interpolate_vars s.1 (average_vars snaps) metaStepSize ∧
      ∀ k (hk : k < metaBatchSize) (hk' : k < snaps.length),
        ∃ bs a, reptileTaskBatches dataset numClasses numShots innerBatchSize
            innerIters replacement idx rnds k = .ok bs ∧
          bs.length = innerIters ∧
          snaps.get ⟨k, hk'⟩ = (bs.foldl step (s.1, a)).1 := by
  unfold reptileTrainStep at h
  dsimp only at h
  cases hloop : reptileLoop step s.1
      (reptileTaskBatches dataset numClasses numShots innerBatchSize innerIters
        replacement idx rnds)
      (List.range metaBatchSize) s with
  | error e => rw [hloop] at h; cases h
  | ok p =>
      obtain ⟨newVars, sEnd⟩ := p
      rw [hloop] at h
      cases h
      obtain ⟨hlen, hmem⟩ := reptileLoop_ok rfl hloop
      rw [List.length_range] at hlen
      refine ⟨newVars, hlen, rfl, ?_⟩
      intro k hk hk'
      have hk2 : k < (List.range metaBatchSize).length := by
        rwa [List.length_range]
      obtain ⟨bs, a, htb, hv⟩ := hmem k hk2 hk'
      rw [List.get_range] at htb
      refine ⟨bs, a, htb, ?_, hv⟩
      unfold reptileTaskBatches at htb
      cases hsamp : sampleMiniDatasetWithReplacements dataset numClasses numShots
          (idx k) with
      | error e => rw [hsamp] at htb; cases htb
      | ok task =>
          rw [hsamp] at htb
          exact miniBatches_ok_length htb

/-- C1 witness: a concrete one-variable model, one class, one shot, one
inner iteration, one repetition; the step bumps the trainable variable,
so the snapshot is `[1]` and the imported state is
`interpolate([0], [1], 1) = [1]`. -/
theorem reptile_train_step_correct_witness :
    ∃ snaps : List Vars, snaps.length = 1 ∧
      (([1], ()) : SessState Unit).1
        = interpolate_vars (([0], ()) : SessState Unit).1 (average_vars snaps) 1 ∧
      ∀ k (hk : k < 1) (hk' : k < snaps.length),
        ∃ bs a, reptileTaskBatches [oneClassSource] 1 1 1 1 true (fun _ _ => 0)
            (fun _ => ⟨fun _ => [0], fun _ => []⟩) k = .ok bs ∧
          bs.length = 1 ∧
          snaps.get ⟨k, hk'⟩ = (bs.foldl (bumpStep (I := Nat)) ((([0], ()) :
            SessState Unit).1, a)).1 := by
  refine reptile_train_step_correct (h := ?_)
  show reptileTrainStep (bumpStep (I := Nat)) [oneClassSource] 1 1 1 1 true 1 1
      (fun _ _ => 0) (fun _ => ⟨fun _ => [0], fun _ => []⟩) ([0], ()) = .ok ([1], ())
  simp [reptileTrainStep, reptileLoop, reptileTaskBatches,
    sampleMiniDatasetWithReplacements, randomChoices, miniBatches, miniBatchesRep,
    collectBatches, randomSample, bumpStep, oneClassSource, interpolate_vars,
    average_vars, scale_vars, add_vars]

/-! ### C2: the FOML training step -/

/-- Characterisation of a successful FOML outer loop started with the
trainable snapshot equal to `old`: one recorded update per repetition,
each the final-step delta of an inner loop started from trainable state
`old`. -/
theorem fomlLoop_ok {I A : Type}
    {step : SessState A → List (I × Nat) → SessState A} {old : Vars}
    {tb : Nat → Except PyErr (List (List (I × Nat)))} :
    ∀ {ks : List Nat} {s : SessState A} {us : List Vars} {sF : SessState A},
      s.1 = old →
      fomlLoop step old tb ks s = .ok (us, sF) →
      us.length = ks.length ∧
      ∀ j (hj : j < ks.length) (hj' : j < us.length), ∃ bs a,
        tb (ks.get ⟨j, hj⟩) = .ok bs ∧ bs ≠ [] ∧
        us.get ⟨j, hj'⟩ = subtract_vars (bs.foldl step (old, a)).1
          ((bs.dropLast).foldl step (old, a)).1 := by
  intro ks
  induction ks with
  | nil =>
      intro s us sF hs h
      cases h
      exact ⟨rfl, fun j hj => absurd hj (Nat.not_lt_zero j)⟩
  | cons k ks ih =>
      intro s us sF hs h
      unfold fomlLoop at h
      cases htb : tb k with
      | error e => rw [htb] at h; cases h
      | ok bs =>
          rw [htb] at h
          dsimp only at h
          cases hupd : fomlTaskUpdate step bs s with
          | error e => rw [hupd] at h; cases h
          | ok q =>
              obtain ⟨u, s'⟩ := q
              rw [hupd] at h
              dsimp only at h
              cases hrec : fomlLoop step old tb ks (old, s'.2) with
              | error e => rw [hrec] at h; cases h
              | ok p =>
                  obtain ⟨us', sF'⟩ := p
                  rw [hrec] at h
                  cases h
                  obtain ⟨hne, _, hu⟩ := fomlTaskUpdate_ok hupd
                  obtain ⟨hlen, hmem⟩ := ih (s := (old, s'.2)) rfl hrec
                  refine ⟨by simp [hlen], ?_⟩
                  intro j hj hj'
                  cases j with
                  | zero =>
                      refine ⟨bs, s.2, htb, hne, ?_⟩
                      have hs' : s = (old, s.2) := by rw [← hs]
                      rw [← hs']
                      exact hu
                  | succ j =>
                      have hj2 : j < ks.length := Nat.lt_of_succ_lt_succ hj
                      have hj2' : j < us'.length := Nat.lt_of_succ_lt_succ hj'
                      exact hmem j hj2 hj2'

/-- C2: a successful `FOML.train_step` records, per repetition of the
`meta_batch_size` outer loop, the update
`final_update = (snapshot after all inner steps) − (snapshot just
before the final inner step)` of an inner loop started from the shared
trainable vector `old = s.1`, and finally imports
`add_vars(old, scale_vars(average_vars(final_updates), meta_step_size))`
— an additive combination of `old` and the scaled average, not an
interpolation. -/
theorem foml_train_step_correct {I A : Type} {tailShots : Option Nat}
    {step : SessState A → List (I × Nat) → SessState A}
    {dataset : List (ClassSource I)} {numClasses numShots : Nat}
    {innerBatchSize innerIters : Nat} {replacement : Bool}
    {metaStepSize : ℚ} {metaBatchSize : Nat}
    {idx : Nat → Nat → Nat} {rnds : Nat → BatchRand (I × Nat)}
    {s sF : SessState A}
    (h : fomlTrainStep tailShots step dataset numClasses numShots innerBatchSize
      innerIters replacement metaStepSize metaBatchSize idx rnds s = .ok sF) :
    ∃ ups : List Vars, ups.length = metaBatchSize ∧
      sF.1 = add_vars s.1 (scale_vars (average_vars ups) metaStepSize) ∧
      ∀ k (hk : k < metaBatchSize) (hk' : k < ups.length),
        ∃ bs a, fomlTaskBatches tailShots dataset numClasses numShots
            innerBatchSize innerIters replacement idx rnds k = .ok bs ∧
          bs ≠ [] ∧
          ups.get ⟨k, hk'⟩ = subtract_vars (bs.foldl step (s.1, a)).1
            ((bs.dropLast).foldl step (s.1, a)).1 := by
  unfold fomlTrainStep at h
  dsimp only at h
  cases hloop : fomlLoop step s.1
      (fomlTaskBatches tailShots dataset numClasses numShots innerBatchSize
        innerIters replacement idx rnds)
      (List.range metaBatchSize) s with
  | error e => rw [hloop] at h; cases h
  | ok p =>
      obtain ⟨ups, sEnd⟩ := p
      rw [hloop] at h
      cases h
      obtain ⟨hlen, hmem⟩ := fomlLoop_ok rfl hloop
      rw [List.length_range] at hlen
      refine ⟨ups, hlen, rfl, ?_⟩
      intro k hk hk'
      have hk2 : k < (List.range metaBatchSize).length := by
        rw [List.length_range]; exact hk
      obtain ⟨bs, a, htb, hne, hu⟩ := hmem k hk2 hk'
      rw [List.get_range] at htb
      exact ⟨bs, a, htb, hne, hu⟩

/-- C2 witness: the concrete one-variable instance of the FOML step
(`tail_shots` unset, one batch): the recorded update is
`[1] − [0] = [1]` and the imported state is `[0] + 1 · [1] = [1]`. -/
theorem foml_train_step_correct_witness :
    ∃ ups : List Vars, ups.length = 1 ∧
      (([1], ()) : SessState Unit).1
        = add_vars (([0], ()) : SessState Unit).1
            (scale_vars (average_vars ups) 1) ∧
      ∀ k (hk : k < 1) (hk' : k < ups.length),
        ∃ bs a, fomlTaskBatches none [oneClassSource] 1 1 1 1 true (fun _ _ => 0)
            (fun _ => ⟨fun _ => [0], fun _ => []⟩) k = .ok bs ∧
          bs ≠ [] ∧
          ups.get ⟨k, hk'⟩ = subtract_vars
            ((bs.foldl (bumpStep (I := Nat)) ((([0], ()) : SessState Unit).1, a)).1)
            ((bs.dropLast.foldl (bumpStep (I := Nat))
              ((([0], ()) : SessState Unit).1, a)).1) := by
  refine foml_train_step_correct (h := ?_)
  show fomlTrainStep none (bumpStep (I := Nat)) [oneClassSource] 1 1 1 1 true 1 1
      (fun _ _ => 0) (fun _ => ⟨fun _ => [0], fun _ => []⟩) ([0], ()) = .ok ([1], ())
  simp [fomlTrainStep, fomlLoop, fomlTaskBatches, fomlMiniBatches,
    sampleMiniDatasetWithReplacements, randomChoices, miniBatches, miniBatchesRep,
    collectBatches, randomSample, fomlTaskUpdate, bumpStep, oneClassSource,
    subtract_vars, add_vars, scale_vars, average_vars]

/-! ### C7: the train/test split -/

/-- The sub-sequence of a task carrying a given label. -/
def labelFilter {I : Type} (lab : Nat) (l : List (I × Nat)) : List (I × Nat) :=
  l.filter (fun x => x.2 == lab)

theorem removeFirstByLabel_none {I : Type} {lab : Nat} :
    ∀ {l : List (I × Nat)}, removeFirstByLabel lab l = none ↔ labelFilter lab l = [] := by
  intro l
  induction l with
  | nil => simp [removeFirstByLabel, labelFilter]
  | cons x xs ih =>
      by_cases hx : x.2 = lab
      · simp [removeFirstByLabel, labelFilter, hx]
      · simp only [removeFirstByLabel, labelFilter, if_neg hx, List.filter_cons]
        rw [show (x.2 == lab) = false by simp [hx]]
        simp only [Option.map_eq_none'] at *
        simpa [labelFilter] using ih

theorem removeFirstByLabel_some {I : Type} {lab : Nat} :
    ∀ {l : List (I × Nat)} {p : (I × Nat) × List (I × Nat)},
      removeFirstByLabel lab l = some p →
      p.1.2 = lab ∧
      labelFilter lab l = p.1 :: labelFilter lab p.2 ∧
      (∀ lab', lab' ≠ lab → labelFilter lab' p.2 = labelFilter lab' l) ∧
      l.Perm (p.1 :: p.2) := by
  intro l
  induction l with
  | nil => intro p h; cases h
  | cons y ys ih =>
      intro p h
      by_cases hy : y.2 = lab
      · rw [removeFirstByLabel, if_pos hy] at h
        cases h
        refine ⟨hy, ?_, ?_, List.Perm.refl _⟩
        · simp [labelFilter, List.filter_cons, hy]
        · intro lab2 hne
          simp [labelFilter, List.filter_cons, hy, Ne.symm hne]
      · rw [removeFirstByLabel, if_neg hy] at h
        cases hrec : removeFirstByLabel lab ys with
        | none => rw [hrec] at h; cases h
        | some q =>
            rw [hrec] at h
            simp only [Option.map_some'] at h
            cases h
            obtain ⟨hlab, hfilter, hother, hperm⟩ := ih hrec
            refine ⟨hlab, ?_, ?_, ?_⟩
            · unfold labelFilter at hfilter ⊢
              simp only [List.filter_cons, show (y.2 == lab) = false by simp [hy],
                Bool.false_eq_true, if_false]
              exact hfilter
            · intro lab2 hne
              unfold labelFilter at hother ⊢
              rw [List.filter_cons, List.filter_cons]
              cases hyl : (y.2 == lab2) with
              | true => rw [hother lab2 hne]
              | false => exact hother lab2 hne
            · exact (hperm.cons y).trans (List.Perm.swap q.1 y q.2)

theorem splitRound_spec {I : Type} :
    ∀ (labels : List Nat) (tr te : List (I × Nat)), labels.Nodup →
      (∀ lab, lab ∉ labels →
        labelFilter lab (splitRound labels (tr, te)).1 = labelFilter lab tr ∧
        labelFilter lab (splitRound labels (tr, te)).2 = labelFilter lab te) ∧
      (∀ lab, lab ∈ labels →
        labelFilter lab (splitRound labels (tr, te)).1 = (labelFilter lab tr).tail ∧
        labelFilter lab (splitRound labels (tr, te)).2
          = labelFilter lab te ++ (labelFilter lab tr).take 1) ∧
      ((splitRound labels (tr, te)).1 ++ (splitRound labels (tr, te)).2).Perm
        (tr ++ te) := by
  intro labels
  induction labels with
  | nil =>
      intro tr te _
      refine ⟨fun lab _ => ⟨rfl, rfl⟩, fun lab h => absurd h (List.not_mem_nil lab), ?_⟩
      exact List.Perm.refl _
  | cons lab0 rest ih =>
      intro tr te hnd
      rw [List.nodup_cons] at hnd
      obtain ⟨hlab0, hndrest⟩ := hnd
      cases hrem : removeFirstByLabel lab0 tr with
      | none =>
          have hfil0 : labelFilter lab0 tr = [] := removeFirstByLabel_none.mp hrem
          have heq : splitRound (lab0 :: rest) (tr, te) = splitRound rest (tr, te) := by
            unfold splitRound
            rw [List.foldl_cons]
            dsimp only
            rw [hrem]
          obtain ⟨hout, hin, hperm⟩ := ih tr te hndrest
          rw [heq]
          refine ⟨?_, ?_, hperm⟩
          · intro lab hmem
            exact hout lab (fun hm => hmem (List.mem_cons_of_mem lab0 hm))
          · intro lab hmem
            rcases List.mem_cons.mp hmem with rfl | hmem
            · obtain ⟨h1, h2⟩ := hout lab hlab0
              rw [h1, h2, hfil0]
              exact ⟨rfl, by simp⟩
            · exact hin lab hmem
      | some q =>
          obtain ⟨x, tr'⟩ := q
          obtain ⟨hxlab, hfil0, hother, hperm0⟩ := removeFirstByLabel_some hrem
          dsimp only at hxlab hfil0 hother hperm0
          have heq : splitRound (lab0 :: rest) (tr, te)
              = splitRound rest (tr', te ++ [x]) := by
            unfold splitRound
            rw [List.foldl_cons]
            dsimp only
            rw [hrem]
          obtain ⟨hout, hin, hperm⟩ := ih tr' (te ++ [x]) hndrest
          rw [heq]
          refine ⟨?_, ?_, ?_⟩
          · intro lab hmem
            have hne : lab ≠ lab0 := fun h => hmem (h ▸ List.mem_cons_self lab0 rest)
            have hrest : lab ∉ rest := fun hm => hmem (List.mem_cons_of_mem lab0 hm)
            obtain ⟨h1, h2⟩ := hout lab hrest
            refine ⟨by rw [h1, hother lab hne], ?_⟩
            rw [h2]
            unfold labelFilter
            rw [List.filter_append]
            rw [show List.filter (fun y => y.2 == lab) [x] = [] by
              simp [hxlab, Ne.symm hne]]
            rw [List.append_nil]
          · intro lab hmem
            rcases List.mem_cons.mp hmem with rfl | hmem
            · obtain ⟨h1, h2⟩ := hout lab hlab0
              constructor
              · rw [h1, hfil0]
                rfl
              · rw [h2, hfil0]
                unfold labelFilter
                rw [List.filter_append]
                rw [show List.filter (fun y => y.2 == lab) [x] = [x] by
                  simp [hxlab]]
                simp
            · have hne : lab ≠ lab0 := fun h => hlab0 (h ▸ hmem)
              obtain ⟨h1, h2⟩ := hin lab hmem
              refine ⟨by rw [h1, hother lab hne], ?_⟩
              rw [h2, hother lab hne]
              unfold labelFilter
              rw [List.filter_append]
              rw [show List.filter (fun y => y.2 == lab) [x] = [] by
                simp [hxlab, Ne.symm hne]]
              rw [List.append_nil]
          · refine hperm.trans ?_
            refine (List.Perm.append_left tr' List.perm_append_comm).trans ?_
            rw [← List.append_assoc tr' [x] te]
            exact List.Perm.append_right te (List.perm_append_comm.trans hperm0.symm)

theorem take_drop_succ {α : Type} :
    ∀ (l : List α) (n : Nat), l.take n ++ (l.drop n).take 1 = l.take (n + 1) := by
  intro l
  induction l with
  | nil => intro n; simp
  | cons x xs ih =>
      intro n
      cases n with
      | zero => simp
      | succ m =>
          rw [List.take_succ_cons, List.drop_succ_cons, List.cons_append, ih m]
          rfl

theorem splitRounds_invariant {I : Type} {labels : List Nat} (hnd : labels.Nodup)
    {samples : List (I × Nat)} :
    ∀ (k r : Nat) (tr te : List (I × Nat)),
      (∀ lab, lab ∉ labels → labelFilter lab tr = labelFilter lab samples ∧
        labelFilter lab te = []) →
      (∀ lab, lab ∈ labels → labelFilter lab tr = (labelFilter lab samples).drop r ∧
        labelFilter lab te = (labelFilter lab samples).take r) →
      (tr ++ te).Perm samples →
      (∀ lab, lab ∉ labels →
        labelFilter lab (splitRounds labels k (tr, te)).1 = labelFilter lab samples ∧
        labelFilter lab (splitRounds labels k (tr, te)).2 = []) ∧
      (∀ lab, lab ∈ labels →
        labelFilter lab (splitRounds labels k (tr, te)).1
          = (labelFilter lab samples).drop (r + k) ∧
        labelFilter lab (splitRounds labels k (tr, te)).2
          = (labelFilter lab samples).take (r + k)) ∧
      ((splitRounds labels k (tr, te)).1 ++ (splitRounds labels k (tr, te)).2).Perm
        samples := by
  intro k
  induction k with
  | zero =>
      intro r tr te hout hin hperm
      exact ⟨hout, by simpa using hin, hperm⟩
  | succ k ih =>
      intro r tr te hout hin hperm
      obtain ⟨rout, rin, rperm⟩ := splitRound_spec labels tr te hnd
      have hstep : splitRounds labels (k + 1) (tr, te)
          = splitRounds labels k (splitRound labels (tr, te)) := rfl
      have hpair : splitRound labels (tr, te)
          = ((splitRound labels (tr, te)).1, (splitRound labels (tr, te)).2) := rfl
      have hout1 : ∀ lab, lab ∉ labels →
          labelFilter lab (splitRound labels (tr, te)).1 = labelFilter lab samples ∧
          labelFilter lab (splitRound labels (tr, te)).2 = [] := by
        intro lab hm
        obtain ⟨h1, h2⟩ := rout lab hm
        exact ⟨h1.trans (hout lab hm).1, h2.trans (hout lab hm).2⟩
      have hin1 : ∀ lab, lab ∈ labels →
          labelFilter lab (splitRound labels (tr, te)).1
            = (labelFilter lab samples).drop (r + 1) ∧
          labelFilter lab (splitRound labels (tr, te)).2
            = (labelFilter lab samples).take (r + 1) := by
        intro lab hm
        obtain ⟨h1, h2⟩ := rin lab hm
        obtain ⟨g1, g2⟩ := hin lab hm
        constructor
        · rw [h1, g1, List.tail_drop]
        · rw [h2, g2, g1, take_drop_succ]
      have harith : ∀ m : Nat, r + 1 + m = r + (m + 1) := by omega
      obtain ⟨c1, c2, c3⟩ := ih (r + 1) (splitRound labels (tr, te)).1
        (splitRound labels (tr, te)).2 hout1 hin1 (rperm.trans hperm)
      rw [hstep, hpair]
      refine ⟨c1, ?_, c3⟩
      intro lab hm
      obtain ⟨d1, d2⟩ := c2 lab hm
      rw [harith k] at d1 d2
      exact ⟨d1, d2⟩

theorem labelFilter_eq_nil_of_not_mem_dedup {I : Type} {samples : List (I × Nat)}
    {lab : Nat} (h : lab ∉ (samples.map Prod.snd).dedup) :
    labelFilter lab samples = [] := by
  rw [List.mem_dedup, List.mem_map] at h
  unfold labelFilter
  rw [List.filter_eq_nil_iff]
  intro x hx
  simp only [beq_iff_eq]
  intro heq
  exact h ⟨x, hx, heq⟩

theorem labelFilter_filter_ne {I : Type} {a lab : Nat} (hne : lab ≠ a) :
    ∀ (l : List (I × Nat)),
      labelFilter lab (l.filter (fun x => !(x.2 == a))) = labelFilter lab l := by
  intro l
  induction l with
  | nil => rfl
  | cons x xs ih =>
      by_cases hx : x.2 = a
      · have hxl : ¬ x.2 = lab := fun h => hne (h ▸ hx ▸ rfl)
        simp only [labelFilter, List.filter_cons] at *
        simp [hx, hxl, ih, hne, Ne.symm hne]
      · by_cases hxl : x.2 = lab
        · simp only [labelFilter, List.filter_cons] at *
          simp [hx, hxl, ih, hne, Ne.symm hne]
        · simp only [labelFilter, List.filter_cons] at *
          simp [hx, hxl, ih, hne, Ne.symm hne]

theorem length_eq_sum_labelFilter {I : Type} :
    ∀ (labs : List Nat) (l : List (I × Nat)), labs.Nodup →
      (∀ x ∈ l, x.2 ∈ labs) →
      l.length = (labs.map (fun lab => (labelFilter lab l).length)).sum := by
  intro labs
  induction labs with
  | nil =>
      intro l _ hcov
      cases l with
      | nil => rfl
      | cons x xs => exact absurd (hcov x (by simp)) (List.not_mem_nil _)
  | cons a labs ih =>
      intro l hnd hcov
      rw [List.nodup_cons] at hnd
      obtain ⟨ha, hnd⟩ := hnd
      have hsplit : ∀ (m : List (I × Nat)), m.length = (labelFilter a m).length
          + (m.filter (fun x => !(x.2 == a))).length := by
        intro m
        induction m with
        | nil => rfl
        | cons y ys ihy =>
            by_cases hy : y.2 = a
            · simp only [labelFilter, List.filter_cons] at *
              simp [hy, ihy]
              omega
            · simp only [labelFilter, List.filter_cons] at *
              simp [hy, ihy]
              omega
      have hcov' : ∀ x ∈ l.filter (fun x => !(x.2 == a)), x.2 ∈ labs := by
        intro x hx
        rw [List.mem_filter] at hx
        obtain ⟨hxl, hxa⟩ := hx
        rcases List.mem_cons.mp (hcov x hxl) with heq | hm
        · rw [heq] at hxa; simp at hxa
        · exact hm
      have hsum := ih (l.filter (fun x => !(x.2 == a))) hnd hcov'
      have hmaps : labs.map
            (fun lab => (labelFilter lab (l.filter (fun x => !(x.2 == a)))).length)
          = labs.map (fun lab => (labelFilter lab l).length) := by
        refine List.map_congr_left ?_
        intro lab hm
        have hne : lab ≠ a := fun h => ha (h ▸ hm)
        rw [labelFilter_filter_ne hne]
      rw [List.map_cons, List.sum_cons, hsplit l, hsum, hmaps]

theorem sum_le_mul_of_le : ∀ (labs : List Nat) (f : Nat → Nat) (k : Nat),
    (∀ lab ∈ labs, f lab ≤ k) → (labs.map f).sum ≤ labs.length * k := by
  intro labs f k
  induction labs with
  | nil => intro _; simp
  | cons a labs ih =>
      intro h
      rw [List.map_cons, List.sum_cons, List.length_cons, Nat.succ_mul]
      have h1 : f a ≤ k := h a (by simp)
      have h2 := ih (fun lab hm => h lab (by simp [hm]))
      omega

theorem sum_lt_mul_iff_exists_lt : ∀ (labs : List Nat) (f : Nat → Nat) (k : Nat),
    (∀ lab ∈ labs, f lab ≤ k) →
    ((labs.map f).sum < labs.length * k ↔ ∃ lab ∈ labs, f lab < k) := by
  intro labs f k
  induction labs with
  | nil => intro _; simp
  | cons a labs ih =>
      intro h
      have h1 : f a ≤ k := h a (by simp)
      have h2 := ih (fun lab hm => h lab (by simp [hm]))
      have h3 := sum_le_mul_of_le labs f k (fun lab hm => h lab (by simp [hm]))
      rw [List.map_cons, List.sum_cons, List.length_cons, Nat.succ_mul]
      constructor
      · intro hlt
        by_cases hfa : f a < k
        · exact ⟨a, by simp, hfa⟩
        · have : (labs.map f).sum < labs.length * k := by omega
          obtain ⟨lab, hm, hl⟩ := h2.mp this
          exact ⟨lab, by simp [hm], hl⟩
      · intro ⟨lab, hm, hl⟩
        rcases List.mem_cons.mp hm with rfl | hm
        · omega
        · have : (labs.map f).sum < labs.length * k := h2.mpr ⟨lab, hm, hl⟩
          omega

/-- Full characterisation of `_split_train_test` (shared helper): the
success conclusions and the exact error condition. -/
theorem splitTrainTest_props {I : Type} (samples : List (I × Nat)) (k : Nat) :
    (∀ tr te, splitTrainTest samples k = .ok (tr, te) →
      (∀ lab, labelFilter lab te = (labelFilter lab samples).take k) ∧
      (∀ lab, labelFilter lab tr = (labelFilter lab samples).drop k) ∧
      (∀ lab ∈ (samples.map Prod.snd).dedup, (labelFilter lab te).length = k) ∧
      te.length = (samples.map Prod.snd).dedup.length * k ∧
      (tr ++ te).Perm samples) ∧
    (splitTrainTest samples k = .error .indexError ↔
      ∃ lab ∈ (samples.map Prod.snd).dedup, (labelFilter lab samples).length < k) := by
  have hnd : ((samples.map Prod.snd).dedup).Nodup := List.nodup_dedup _
  obtain ⟨hout, hin, hperm⟩ := splitRounds_invariant (I := I) hnd k 0 samples []
    (fun lab _ => ⟨rfl, rfl⟩)
    (fun lab _ => ⟨rfl, rfl⟩)
    (by simp)
  simp only [Nat.zero_add] at hin
  set labels := (samples.map Prod.snd).dedup with hlabels
  set st := splitRounds labels k (samples, []) with hst
  have hF2 : ∀ lab, labelFilter lab st.2 = (labelFilter lab samples).take k := by
    intro lab
    by_cases hm : lab ∈ labels
    · exact (hin lab hm).2
    · rw [(hout lab hm).2, labelFilter_eq_nil_of_not_mem_dedup hm, List.take_nil]
  have hF1 : ∀ lab, labelFilter lab st.1 = (labelFilter lab samples).drop k := by
    intro lab
    by_cases hm : lab ∈ labels
    · exact (hin lab hm).1
    · rw [(hout lab hm).1, labelFilter_eq_nil_of_not_mem_dedup hm, List.drop_nil]
  have hcov : ∀ x ∈ st.2, x.2 ∈ labels := by
    intro x hx
    by_contra hnm
    have h1 : labelFilter x.2 st.2 = [] := (hout x.2 hnm).2
    have h2 : x ∈ labelFilter x.2 st.2 := by
      unfold labelFilter
      rw [List.mem_filter]
      exact ⟨hx, by simp⟩
    rw [h1] at h2
    cases h2
  have hlen2 : st.2.length
      = (labels.map (fun lab => min k (labelFilter lab samples).length)).sum := by
    rw [length_eq_sum_labelFilter labels st.2 hnd hcov]
    congr 1
    refine List.map_congr_left ?_
    intro lab _
    rw [hF2 lab, List.length_take]
  have hminle : ∀ lab ∈ labels, min k (labelFilter lab samples).length ≤ k :=
    fun lab _ => Nat.min_le_left _ _
  have hcond : (st.2.length < labels.length * k ↔
      ∃ lab ∈ labels, (labelFilter lab samples).length < k) := by
    rw [hlen2, sum_lt_mul_iff_exists_lt labels _ k hminle]
    constructor
    · intro ⟨lab, hm, hl⟩
      refine ⟨lab, hm, ?_⟩
      rcases Nat.lt_or_ge (labelFilter lab samples).length k with h | h
      · exact h
      · rw [Nat.min_eq_left h] at hl
        exact absurd hl (lt_irrefl k)
    · intro ⟨lab, hm, hl⟩
      exact ⟨lab, hm, by rw [Nat.min_eq_right (Nat.le_of_lt hl)]; exact hl⟩
  constructor
  · intro tr te h
    unfold splitTrainTest at h
    dsimp only at h
    rw [← hlabels, ← hst] at h
    by_cases hc : st.2.length < labels.length * k
    · rw [if_pos hc] at h
      cases h
    · rw [if_neg hc] at h
      have hpair : st = (tr, te) := by
        injection h
      have htr : tr = st.1 := by rw [hpair]
      have hte : te = st.2 := by rw [hpair]
      subst htr hte
      refine ⟨hF2, hF1, ?_, ?_, hperm⟩
      · intro lab hm
        rw [hF2 lab, List.length_take]
        rcases Nat.lt_or_ge (labelFilter lab samples).length k with hlt | hge
        · exact absurd (hcond.mpr ⟨lab, hm, hlt⟩) hc
        · exact Nat.min_eq_left hge
      · have hle : st.2.length ≤ labels.length * k := by
          rw [hlen2]
          exact sum_le_mul_of_le labels _ k hminle
        omega
  · unfold splitTrainTest
    dsimp only
    rw [← hlabels, ← hst]
    by_cases hc : st.2.length < labels.length * k
    · rw [if_pos hc]
      simp only [true_iff]
      exact ⟨(hcond.mp hc).choose, (hcond.mp hc).choose_spec⟩
    · rw [if_neg hc]
      constructor
      · intro h; cases h
      · intro hex
        exact absurd (hcond.mpr hex) hc

/-- C7: on success, `_split_train_test(samples, k)` returns a held-out
portion holding, for every label, exactly the first `k` examples of that
label in task order (so exactly `k` per distinct label present, and
nothing of absent labels), a training portion holding the remaining
examples, the two portions together a permutation of the task (no
occurrence lost, duplicated, or shared); and it raises `IndexError`
exactly when some present label has fewer than `k` examples. -/
theorem split_train_test_spec {I : Type} (samples : List (I × Nat)) (k : Nat) :
    (∀ tr te, splitTrainTest samples k = .ok (tr, te) →
      (∀ lab, labelFilter lab te = (labelFilter lab samples).take k) ∧
      (∀ lab, labelFilter lab tr = (labelFilter lab samples).drop k) ∧
      (∀ lab ∈ (samples.map Prod.snd).dedup, (labelFilter lab te).length = k) ∧
      te.length = (samples.map Prod.snd).dedup.length * k ∧
      (tr ++ te).Perm samples) ∧
    (splitTrainTest samples k = .error .indexError ↔
      ∃ lab ∈ (samples.map Prod.snd).dedup, (labelFilter lab samples).length < k) :=
  splitTrainTest_props samples k

/-- C7 witness: the task `[(10,0), (11,0), (20,1)]` with `k = 1` splits
into train `[(11,0)]` and test `[(10,0), (20,1)]`; all five success
conclusions hold there. -/
theorem split_train_test_spec_witness :
    (∀ lab, labelFilter lab [((10:Nat),(0:Nat)), (20,1)]
      = (labelFilter lab [((10:Nat),(0:Nat)), (11,0), (20,1)]).take 1) ∧
    (∀ lab, labelFilter lab [((11:Nat),(0:Nat))]
      = (labelFilter lab [((10:Nat),(0:Nat)), (11,0), (20,1)]).drop 1) ∧
    (∀ lab ∈ (([((10:Nat),(0:Nat)), (11,0), (20,1)]).map Prod.snd).dedup,
      (labelFilter lab [((10:Nat),(0:Nat)), (20,1)]).length = 1) ∧
    ([((10:Nat),(0:Nat)), (20,1)]).length
      = (([((10:Nat),(0:Nat)), (11,0), (20,1)]).map Prod.snd).dedup.length * 1 ∧
    ([((11:Nat),(0:Nat))] ++ [((10:Nat),(0:Nat)), (20,1)]).Perm
      [((10:Nat),(0:Nat)), (11,0), (20,1)] :=
  (split_train_test_spec [((10:Nat),(0:Nat)), (11,0), (20,1)] 1).1
    [((11:Nat),(0:Nat))] [((10:Nat),(0:Nat)), (20,1)] rfl

/-- Extract of the label-bound part of `_sample_mini_dataset` (shared
helper): every label of a sampled task is below
`min num_classes |dataset|`. -/
theorem sampleMiniDataset_labels {I : Type} (shuffled : List (ClassSource I))
    (numClasses numShots : Nat) :
    ∀ p ∈ sampleMiniDataset shuffled numClasses numShots,
      p.2 < min numClasses shuffled.length := by
  intro p hp
  unfold sampleMiniDataset at hp
  rw [List.mem_flatMap] at hp
  obtain ⟨q, hq, hp⟩ := hp
  rw [List.mem_map] at hp
  obtain ⟨x, _, rfl⟩ := hp
  rw [List.mem_enum_iff_getElem?] at hq
  rw [List.getElem?_eq_some] at hq
  obtain ⟨h1, _⟩ := hq
  rwa [List.length_take] at h1

/-- The distinct labels of a sampled task number at most
`num_classes` (shared helper). -/
theorem sampleMiniDataset_dedup_labels_le {I : Type}
    (shuffled : List (ClassSource I)) (numClasses numShots : Nat) :
    (((sampleMiniDataset shuffled numClasses numShots).map Prod.snd).dedup).length
      ≤ numClasses := by
  have hnd := List.nodup_dedup ((sampleMiniDataset shuffled numClasses numShots).map
    Prod.snd)
  have hsub : ((sampleMiniDataset shuffled numClasses numShots).map Prod.snd).dedup
      ⊆ List.range numClasses := by
    intro lab hm
    rw [List.mem_dedup, List.mem_map] at hm
    obtain ⟨p, hp, rfl⟩ := hm
    rw [List.mem_range]
    exact Nat.lt_of_lt_of_le (sampleMiniDataset_labels shuffled numClasses numShots
      p hp) (Nat.min_le_left _ _)
  have := (List.subperm_of_subset hnd hsub).length_le
  rwa [List.length_range] at this

/-! ### C8: the evaluator -/

/-- C8: a successful `evaluate` returns the full session state exactly
as it received it (the final import of `old_full` undoes the
fine-tuning), together with the number of test predictions equal to the
true label, a count bounded by `num_classes` (the test split holds one
example per class present, and at most `num_classes` classes exist in
the task). -/
theorem evaluate_spec {I A : Type}
    {step : SessState A → List (I × Nat) → SessState A}
    {predict : SessState A → List I → List Nat}
    {transductive : Bool} {augment : Option (Nat → List I → List I)}
    {shuffled : List (ClassSource I)} {numClasses numShots : Nat}
    {innerBatchSize innerIters : Nat} {replacement : Bool}
    {rnd : BatchRand (I × Nat)} {s : SessState A} {cnt : Nat} {s' : SessState A}
    (h : evaluate step predict transductive augment shuffled numClasses numShots
      innerBatchSize innerIters replacement rnd s = .ok (cnt, s')) :
    s' = s ∧ cnt ≤ numClasses ∧
    ∃ tr te preds sAdapted,
      splitTrainTest (sampleMiniDataset shuffled numClasses (numShots + 1)) 1
        = .ok (tr, te) ∧
      testPredictions (predict sAdapted) transductive tr te = .ok preds ∧
      cnt = (preds.zip te).countP (fun pr => pr.1 == pr.2.2) := by
  unfold evaluate at h
  dsimp only at h
  cases hsplit : splitTrainTest (sampleMiniDataset shuffled numClasses (numShots + 1))
      1 with
  | error e => rw [hsplit] at h; cases h
  | ok p =>
      obtain ⟨tr, te⟩ := p
      rw [hsplit] at h
      dsimp only at h
      cases hmb : miniBatches tr innerBatchSize innerIters replacement rnd with
      | error e => rw [hmb] at h; cases h
      | ok batches =>
          rw [hmb] at h
          dsimp only at h
          cases hpred : testPredictions
              (predict (batches.foldl (fun st b => step st (augmentBatch augment b)) s))
              transductive tr te with
          | error e => rw [hpred] at h; cases h
          | ok preds =>
              rw [hpred] at h
              cases h
              refine ⟨rfl, ?_, tr, te, preds,
                batches.foldl (fun st b => step st (augmentBatch augment b)) s,
                rfl, hpred, rfl⟩
              have h1 : (preds.zip te).countP (fun pr => pr.1 == pr.2.2)
                  ≤ (preds.zip te).length := List.countP_le_length _
              have h2 : (preds.zip te).length ≤ te.length := by
                rw [List.length_zip]
                exact Nat.min_le_right _ _
              have h3 : te.length
                  = ((sampleMiniDataset shuffled numClasses (numShots + 1)).map
                    Prod.snd).dedup.length * 1 :=
                (((splitTrainTest_props _ 1).1 tr te hsplit).2.2.2).1
              have h4 := sampleMiniDataset_dedup_labels_le shuffled numClasses
                (numShots + 1)
              omega

/-- A concrete predictor ignoring the session state: label everything
`0`. -/
def zeroPredict {I A : Type} : SessState A → List I → List Nat :=
  fun _ xs => xs.map (fun _ => 0)

/-- C8 witness: one class, one extra shot, one replacement batch; the
call returns count `1` and the untouched input state. -/
theorem evaluate_spec_witness :
    ((([0], ()) : SessState Unit) = (([0], ()) : SessState Unit)) ∧ (1 : Nat) ≤ 1 ∧
    ∃ tr te preds sAdapted,
      splitTrainTest (sampleMiniDataset [oneClassSource] 1 (1 + 1)) 1
        = .ok (tr, te) ∧
      testPredictions (zeroPredict (A := Unit) sAdapted) true tr te = .ok preds ∧
      (1 : Nat) = (preds.zip te).countP (fun pr => pr.1 == pr.2.2) :=
  @evaluate_spec Nat Unit (bumpStep (I := Nat)) zeroPredict true none
    [oneClassSource] 1 1 1 1 true ⟨fun _ => [0], fun _ => []⟩ ([0], ()) 1
    ([0], ()) rfl

/-! ### C5: no-replacement batches and duplicates -/

/-- A concrete reshuffle stream over `[0, 1, 2]`: the first shuffle
comes out `[1, 2, 0]`, every later one `[0, 1, 2]`. -/
def csShuffles : Nat → List Nat := fun i => if i = 0 then [1, 2, 0] else [0, 1, 2]

/-- C5 counterexample: with the duplicate-free `samples = [0, 1, 2]`,
`batch_size = 2` and `num_batches = 3`, the legitimate reshuffle stream
`csShuffles` makes the second yielded batch `[0, 0]` — it straddles the
boundary between the first shuffle's leftover and the second shuffle,
repeating a sample within one batch. -/
theorem mini_batches_norep_duplicate_batch :
    miniBatchesNoRep [0, 1, 2] csShuffles 2 3 = .ok [[1, 2], [0, 0], [1, 2]] ∧
    (csShuffles 0).Perm [0, 1, 2] ∧ (csShuffles 1).Perm [0, 1, 2] ∧
    ([0, 1, 2] : List Nat).Nodup ∧
    [0, 0] ∈ [[1, 2], [0, 0], [1, 2]] ∧ ¬ ([0, 0] : List Nat).Nodup := by
  refine ⟨rfl, ?_, ?_, ?_, ?_, ?_⟩ <;> decide

theorem chunksN_nil {α : Type} (c : Nat) :
    ∀ n : Nat, chunksN c n ([] : List α) = List.replicate n [] := by
  intro n
  induction n with
  | zero => rfl
  | succ m ih => simp [chunksN, ih, List.replicate_succ]

theorem chunksN_nodup_of_nodup {α : Type} {c : Nat} :
    ∀ (n : Nat) (l : List α), l.Nodup → ∀ b ∈ chunksN c n l, b.Nodup := by
  intro n
  induction n with
  | zero => intro l _ b hb; simp [chunksN] at hb
  | succ m ih =>
      intro l hnd b hb
      simp only [chunksN, List.mem_cons] at hb
      rcases hb with rfl | hb
      · exact hnd.sublist (List.take_sublist c l)
      · exact ih (l.drop c) (hnd.sublist (List.drop_sublist c l)) b hb

theorem chunksN_append {α : Type} {c : Nat} (hc : 0 < c) :
    ∀ (n m : Nat) (l r : List α), l.length = c * m →
      chunksN c n (l ++ r)
        = chunksN c (min n m) l ++ chunksN c (n - m) r := by
  intro n
  induction n with
  | zero => intro m l r _; simp [chunksN]
  | succ n ih =>
      intro m l r hlen
      cases m with
      | zero =>
          have hnil : l = [] := List.length_eq_zero.mp (by rw [hlen, Nat.mul_zero])
          subst hnil
          simp [chunksN]
      | succ m' =>
          have hcl : c ≤ l.length := by
            rw [hlen, Nat.mul_succ]
            omega
          have hne : (min n m') + 1 = min (n + 1) (m' + 1) :=
            (Nat.succ_min_succ n m').symm
          rw [show chunksN c (n + 1) (l ++ r)
              = (l ++ r).take c :: chunksN c n ((l ++ r).drop c) from rfl]
          rw [List.take_append_of_le_length hcl, List.drop_append_of_le_length hcl]
          have hdrop : (l.drop c).length = c * m' := by
            rw [List.length_drop, hlen, Nat.mul_succ]
            omega
          rw [ih m' (l.drop c) r hdrop]
          rw [← hne]
          rw [show chunksN c (min n m' + 1) l
              = l.take c :: chunksN c (min n m') (l.drop c) from rfl]
          rw [Nat.succ_sub_succ]
          rfl

theorem chunksN_flatten_nodup {α : Type} {c m : Nat} (hc : 0 < c) :
    ∀ (ls : List (List α)), (∀ l ∈ ls, l.Nodup ∧ l.length = c * m) →
      ∀ (n : Nat) (b : List α), b ∈ chunksN c n ls.flatten → b.Nodup := by
  intro ls
  induction ls with
  | nil =>
      intro _ n b hb
      rw [List.flatten_nil, chunksN_nil] at hb
      rw [List.eq_of_mem_replicate hb]
      exact List.nodup_nil
  | cons l ls ih =>
      intro hall n b hb
      rw [List.flatten_cons, chunksN_append hc n m l ls.flatten
        (hall l (by simp)).2] at hb
      rcases List.mem_append.mp hb with hb | hb
      · exact chunksN_nodup_of_nodup _ l (hall l (by simp)).1 b hb
      · exact ih (fun l' hl' => hall l' (by simp [hl'])) (n - m) b hb

/-- C5 amended: in no-replacement mode with duplicate-free `samples`,
every yielded batch is duplicate-free provided `batch_size` divides
`len(samples)` — then every batch lies inside a single reshuffle; when
`batch_size` does not divide `len(samples)`, a batch straddling a
reshuffle boundary can repeat a sample. -/
theorem mini_batches_norep_nodup {α : Type} [DecidableEq α] (samples : List α)
    (sh : Nat → List α) (batchSize numBatches : Nat) (bsl : List (List α))
    (hperm : ∀ i, (sh i).Perm samples) (hnd : samples.Nodup)
    (hdvd : batchSize ∣ samples.length)
    (h : miniBatchesNoRep samples sh batchSize numBatches = .ok bsl) :
    ∀ b ∈ bsl, b.Nodup := by
  unfold miniBatchesNoRep at h
  by_cases hnb : numBatches = 0
  · rw [if_pos hnb] at h; cases h
  · rw [if_neg hnb] at h
    by_cases hne : samples.isEmpty
    · rw [if_pos hne] at h; cases h
    · rw [if_neg hne] at h
      cases h
      have hnenil : samples ≠ [] := by
        intro hx
        rw [hx] at hne
        exact hne rfl
      have hbs : 0 < batchSize := by
        rcases Nat.eq_zero_or_pos batchSize with rfl | hpos
        · obtain ⟨m, hm⟩ := hdvd
          rw [Nat.zero_mul] at hm
          exact absurd (List.length_eq_zero.mp hm) hnenil
        · exact hpos
      have hmax : max batchSize 1 = batchSize := Nat.max_eq_left hbs
      obtain ⟨m, hm⟩ := hdvd
      intro b hb
      rw [hmax] at hb
      refine chunksN_flatten_nodup (m := m) hbs ((List.range (batchSize * numBatches)).map sh)
        ?_ numBatches b ?_
      · intro l hl
        rw [List.mem_map] at hl
        obtain ⟨i, _, rfl⟩ := hl
        exact ⟨((hperm i).nodup_iff).mpr hnd, by rw [(hperm i).length_eq, hm]⟩
      · exact hb

/-- C5 amended, witness: `samples = [0, 1]` with `batch_size = 1`
dividing the length; both yielded batches are duplicate-free. -/
theorem mini_batches_norep_nodup_witness :
    ([0] : List Nat).Nodup ∧ ([1] : List Nat).Nodup :=
  ⟨mini_batches_norep_nodup [0, 1] (fun _ => [0, 1]) 1 2 [[0], [1]]
      (fun _ => List.Perm.refl _) (by decide) (by decide) rfl [0] (by decide),
    mini_batches_norep_nodup [0, 1] (fun _ => [0, 1]) 1 2 [[0], [1]]
      (fun _ => List.Perm.refl _) (by decide) (by decide) rfl [1] (by decide)⟩
